import Mathlib

/-!
Verification of the next-pinecone-search pipeline: a shallow embedding of
`createPineconeIndex`, `updatePinecone` and `queryPineconeVectorStoreAndQueryLLM`
(utils, `src/unnamed/part_000`), the two `LlamaEmbeddings` clients
(`src/unnamed/part_001` batched, `src/unnamed/part_002` sequential) and the
`POST` route (`src/app/api/read/route.ts`).

Remote services are modelled by their documented contracts: the embedding
service is a deterministic function `f : String → List Int` whose batched
response is aligned to input order; the language model is a function from
(context document, question) to answer text; the vector index's state is the
list of existing index names, and its responses (query matches) are inputs.
Embedding vectors use `Int` entries: no claim depends on float arithmetic.
-/

namespace NPS

/-- JS `text.replace(/\n/g, " ")`: replace every newline character by a space
(per-character substitution, as the regex has a single-character pattern and
replacement). -/
def stripNL (s : String) : String :=
  String.mk (s.data.map (fun c => if c = '\n' then ' ' else c))

/-! ## Embedding service model

Spec §6: HTTP POST to `/v1/embeddings` with `{input: string | sequence of
strings}`; response `{data: sequence of {embedding}}` aligned to input order.
A deterministic service is a function `f : String → List Int`; the response
`data` for a single-string input is the one-element list `[f input]`, and for
a sequence input it is the input mapped through `f`. -/

/-- Response `data` array for a single-string embedding request. -/
def singleEmbedResponse (f : String → List Int) (input : String) : List (List Int) :=
  [f input]

/-- Response `data` array for a sequence embedding request (aligned to input
order, spec §6). -/
def batchEmbedResponse (f : String → List Int) (input : List String) : List (List Int) :=
  input.map f

/-! ## `chunkArray` (imported from `util/chunk` by part_001; file not under src) -/

/-- Fuel-indexed splitter; fuel `xs.length` suffices whenever `size ≥ 1`. -/
def chunkArrayAux {α : Type} (size : Nat) : Nat → List α → List (List α)
  | 0, xs => if xs.isEmpty then [] else [xs]
  | fuel + 1, xs =>
    if xs.isEmpty then []
    else xs.take size :: chunkArrayAux size fuel (xs.drop size)

/-- Modelled from the spec: `chunkArray` (module `util/chunk`, imported by the
batched embeddings client but not present under src) partitions a list into
consecutive groups of at most `size` elements, in order ("batches documents
into groups no larger than a configured batch size"). -/
def chunkArray {α : Type} (xs : List α) (size : Nat) : List (List α) :=
  chunkArrayAux size xs.length xs

/-! ## LlamaEmbeddings, batched client (part_001) -/

/-- The input actually sent by `embedQuery` (part_001 line 49):
`stripNewLines ? text.replace(/\n/g, ' ') : text`. -/
def sentQueryInput (stripNewLines : Bool) (text : String) : String :=
  if stripNewLines then stripNL text else text

/-- The inputs actually sent by the batched `embedDocuments` (part_001 line 63):
`stripNewLines ? texts.map((t) => t.replace(/\n/g, ' ')) : texts`. -/
def sentDocumentsInputs (stripNewLines : Bool) (texts : List String) : List String :=
  if stripNewLines then texts.map stripNL else texts

/-- part_001 `LlamaEmbeddings.embedQuery`: one single-input request, returning
`data.data[0].embedding`. -/
def embedQuery (f : String → List Int) (stripNewLines : Bool) (text : String) : List Int :=
  (singleEmbedResponse f (sentQueryInput stripNewLines text)).getD 0 []

/-- part_001 `LlamaEmbeddings.embedDocuments`: split the (optionally
newline-stripped) texts into batches of `batchSize` via `chunkArray`, issue one
request per batch, then for each batch push `batchResponse.data[j].embedding`
for `j` below the batch's length (lines 61-83). -/
def embedDocuments (f : String → List Int) (stripNewLines : Bool) (batchSize : Nat)
    (texts : List String) : List (List Int) :=
  let batches := chunkArray (sentDocumentsInputs stripNewLines texts) batchSize
  let batchResponses := batches.map (batchEmbedResponse f)
  ((batches.zip batchResponses).map
    (fun bp => (List.range bp.1.length).map (fun j => bp.2.getD j []))).flatten

/-! ## LlamaEmbeddings, sequential client (part_002) -/

/-- part_002 `LlamaEmbeddings.embedQuery`: one request with the raw text (no
newline stripping), returning `result.data[0].embedding`. -/
def embedQuerySeq (f : String → List Int) (text : String) : List Int :=
  (singleEmbedResponse f text).getD 0 []

/-- part_002 `LlamaEmbeddings.embedDocuments`: one request per document in
order, pushing `result.data[0].embedding` each time (lines 15-25). -/
def embedDocumentsSeq (f : String → List Int) (documents : List String) : List (List Int) :=
  documents.foldl (fun embeddings doc => embeddings ++ [(singleEmbedResponse f doc).getD 0 []]) []

/-! ## createPineconeIndex (part_000 lines 9-38)

The remote vector-index service is modelled by its state: the list of existing
index names (`client.listIndexes()`); per the service contract, a successful
`createIndex` adds the name to that list. The function returns the new remote
state, the list of creation requests issued, and the list of initialization
waits performed (`setTimeout(resolve, timeout)`). -/

structure CreateRequest where
  name : String
  dimension : Nat
  metric : String
deriving DecidableEq

/-- part_000 `createPineconeIndex`: list existing indexes; if the name is not
among them, issue one creation request `{name, dimension, metric: 'cosine'}`
and wait `timeout` milliseconds; otherwise do nothing. -/
def createPineconeIndex (timeout : Nat) (existing : List String) (indexName : String)
    (vectorDimension : Nat) : List String × List CreateRequest × List Nat :=
  if indexName ∈ existing then
    (existing, [], [])
  else
    (existing ++ [indexName], [⟨indexName, vectorDimension, "cosine"⟩], [timeout])

/-! ## updatePinecone, per-document body (part_000 lines 49-96) -/

/-- A chunk produced by the text splitter: `pageContent` plus its `loc`
metadata (kept in its `JSON.stringify`d string form, which no claim inspects). -/
structure Chunk where
  pageContent : String
  loc : String
deriving DecidableEq, Inhabited

/-- A Pinecone vector record as assembled at part_000 lines 73-82; the
`metadata` object's fields are flattened into `loc`, `pageContent`, `txtPath`. -/
structure PineVector where
  id : String
  values : List Int
  loc : String
  pageContent : String
  txtPath : String
deriving DecidableEq, Inhabited

/-- The vector built for chunk `idx` (part_000 lines 73-82): id
`${txtPath}_${idx}`, values `embeddingsArrays[idx]`, metadata carrying the
chunk's original `pageContent` and the source path. -/
def buildVector (txtPath : String) (embeddingsArrays : List (List Int)) (chunk : Chunk)
    (idx : Nat) : PineVector :=
  { id := txtPath ++ "_" ++ toString idx
    values := embeddingsArrays.getD idx []
    loc := chunk.loc
    pageContent := chunk.pageContent
    txtPath := txtPath }

/-- The texts sent to the embedding endpoint for a document's chunks
(part_000 lines 63-65): each chunk's `pageContent.replace(/\n/g, " ")`. -/
def embedInputs (chunks : List Chunk) : List String :=
  chunks.map (fun chunk => stripNL chunk.pageContent)

/-- The batched upsert loop (part_000 lines 69-96): walk the chunks with index
`idx`, append each built vector to `batch`, and flush `batch` as one upsert
call when it reaches `batchSize` or the current chunk is the last
(`idx == chunks.length - 1`, i.e. the remaining list is empty). Returns the
list of upsert calls, each one batch of vectors. -/
def upsertLoop (txtPath : String) (emb : List (List Int)) (batchSize : Nat) :
    List Chunk → Nat → List PineVector → List (List PineVector)
  | [], _, _ => []
  | chunk :: rest, idx, batch =>
    let batch' := batch ++ [buildVector txtPath emb chunk idx]
    if batch'.length = batchSize ∨ rest = [] then
      batch' :: upsertLoop txtPath emb batchSize rest (idx + 1) []
    else
      upsertLoop txtPath emb batchSize rest (idx + 1) batch'

/-- Per-document body of `updatePinecone` (part_000 lines 49-96): embed the
newline-stripped chunk texts through the external embedding service `f`
(response aligned to input order, spec §6), then run the upsert loop with
`batchSize = 100` starting from an empty batch at index 0. -/
def updatePineconeDoc (f : String → List Int) (txtPath : String) (chunks : List Chunk) :
    List (List PineVector) :=
  upsertLoop txtPath (batchEmbedResponse f (embedInputs chunks)) 100 chunks 0 []

/-- The vectors built for `chunks` starting at index `idx` (specification of
what the upsert loop writes). -/
def vectorsFrom (txtPath : String) (emb : List (List Int)) (idx : Nat) :
    List Chunk → List PineVector
  | [] => []
  | chunk :: rest => buildVector txtPath emb chunk idx :: vectorsFrom txtPath emb (idx + 1) rest

/-! ## queryPineconeVectorStoreAndQueryLLM (part_000 lines 100-146)

The index's query response (`queryResponse.matches`, with metadata included) is
an input; the completion service is a function `llm` from (context document,
question). The function returns the optional answer (`undefined`, i.e. `none`,
on the no-match path) together with the list of completion calls issued. -/

/-- A query match as returned by the index with `includeMetadata` (only the
fields the code reads are kept; `metadata.pageContent` is the stored raw
text). -/
structure QueryMatch where
  id : String
  score : Int
  pageContent : String
deriving DecidableEq, Inhabited

/-- One completion call: the single context document passed as
`input_documents` and the `question` string sent. -/
structure CompletionCall where
  contextDoc : String
  question : String
deriving DecidableEq, Inhabited

/-- part_000 lines 126-146: if `queryResponse.matches?.length` is truthy,
space-join the matches `metadata.pageContent` in response order, call the QA
chain once with that single document and with the question string
`` `${question}, trả lời bằng thơ nhé` ``, and return the model's text;
otherwise skip the language model and return `undefined` (`none`). -/
def queryPineconeVectorStoreAndQueryLLM (llm : String → String → String) (question : String)
    (matchList : List QueryMatch) : Option String × List CompletionCall :=
  if matchList.length ≠ 0 then
    let concatenatedPageContent := String.intercalate " " (matchList.map (fun m => m.pageContent))
    let sentQuestion := question ++ ", trả lời bằng thơ nhé"
    (some (llm concatenatedPageContent sentQuestion), [⟨concatenatedPageContent, sentQuestion⟩])
  else
    (none, [])

/-! ## POST route (src/app/api/read/route.ts) -/

/-- The JSON values the route can place in its response object. -/
inductive Json where
  | jstr : String → Json
  | jnull : Json
deriving DecidableEq

/-- Serialized body of `NextResponse.json({data: text})` as a list of JSON
object fields: `JSON.stringify` keeps `data` when `text` is a string and omits
the field entirely when `text` is `undefined` (JS objects drop
undefined-valued fields on serialization). -/
def postResponseBody (result : Option String) : List (String × Json) :=
  match result with
  | some t => [("data", Json.jstr t)]
  | none => []

/-- route.ts `POST`: run the query pipeline on the request body and return
`NextResponse.json({data: text})` (serialized fields). -/
def POST (llm : String → String → String) (matchList : List QueryMatch) (body : String) :
    List (String × Json) :=
  postResponseBody (queryPineconeVectorStoreAndQueryLLM llm body matchList).1

/-! ## Text Chunker (spec §4.2; the splitter is library code not under src)

Modelled from the spec: `RecursiveCharacterTextSplitter({chunkSize: 1000})`
(part_000 lines 54-59) is external library code; the spec's Text Chunker
contract is "output an ordered sequence of chunks, each at most a configured
maximum size (default 1000 units), preferring to split at structural
boundaries (paragraph, then sentence, then word) before falling back to a
hard cut", deterministic, with no characters dropped or duplicated. -/

/-- The split positions `1 ≤ i ≤ C` such that the character ending the
prospective chunk (position `i - 1`) satisfies `pred`; the last such position
is the preferred one. -/
def lastBoundaryIn (pred : Char → Bool) (C : Nat) (s : List Char) : Option Nat :=
  (((List.range C).map (fun i => i + 1)).filter (fun i => pred (s.getD (i - 1) 'a'))).getLast?

/-- Modelled from the spec: the split point for an over-long text — the last
paragraph boundary (after a newline) within the first `C` characters, else the
last sentence boundary (after a period), else the last word boundary (after a
space), else the hard cut at `C`. -/
def bestSplit (C : Nat) (s : List Char) : Nat :=
  match lastBoundaryIn (fun c => c = '\n') C s with
  | some i => i
  | none =>
    match lastBoundaryIn (fun c => c = '.') C s with
    | some i => i
    | none =>
      match lastBoundaryIn (fun c => c = ' ') C s with
      | some i => i
      | none => C

/-- Fuel-indexed chunker; fuel `s.length` suffices whenever `C ≥ 1`. -/
def chunkTextAux (C : Nat) : Nat → List Char → List (List Char)
  | 0, s => if s.isEmpty then [] else [s]
  | fuel + 1, s =>
    if s.isEmpty then []
    else if s.length ≤ C then [s]
    else s.take (bestSplit C s) :: chunkTextAux C fuel (s.drop (bestSplit C s))

/-- Modelled from the spec: the Text Chunker — repeatedly cut off a prefix of
at most `C` characters at the best structural boundary (hard cut at `C` when
none), until the remainder fits in one chunk. -/
def chunkText (C : Nat) (s : List Char) : List (List Char) :=
  chunkTextAux C s.length s

/-! ## General list lemmas -/

/-- `getD` through a `map`, at an in-range index. -/
theorem getD_map {α β : Type} (g : α → β) (d : α) (d' : β) :
    ∀ (l : List α) (i : Nat), i < l.length → (l.map g).getD i d' = g (l.getD i d) := by
  intro l
  induction l with
  | nil => intro i h; simp at h
  | cons a t ih =>
    intro i h
    cases i with
    | zero => simp
    | succ j =>
      simp only [List.map_cons, List.getD_cons_succ]
      exact ih j (by simpa using h)

/-- Reading a list back out of itself by index. -/
theorem range_map_getD {α : Type} (d : α) :
    ∀ (l : List α), (List.range l.length).map (fun j => l.getD j d) = l := by
  intro l
  induction l with
  | nil => simp
  | cons a t ih =>
    rw [List.length_cons, List.range_succ_eq_map, List.map_cons, List.map_map]
    simp only [List.getD_cons_zero]
    congr 1

/-- Zipping a list with its own image under `g`. -/
theorem zip_self_map {α β : Type} (g : α → β) :
    ∀ (l : List α), l.zip (l.map g) = l.map (fun a => (a, g a)) := by
  intro l
  induction l with
  | nil => rfl
  | cons a t ih => simp [ih]

/-- Left fold that pushes one element per step is a `map`. -/
theorem foldl_push_eq_map {α β : Type} (g : α → β) :
    ∀ (l : List α) (acc : List β), l.foldl (fun e d => e ++ [g d]) acc = acc ++ l.map g := by
  intro l
  induction l with
  | nil => intro acc; simp
  | cons a t ih => intro acc; simp [ih]

/-! ## chunkArray lemmas -/

/-- Concatenating the batches gives back the original list. -/
theorem chunkArrayAux_flatten {α : Type} (size : Nat) :
    ∀ (fuel : Nat) (xs : List α), (chunkArrayAux size fuel xs).flatten = xs := by
  intro fuel
  induction fuel with
  | zero => intro xs; cases xs <;> simp [chunkArrayAux]
  | succ n ih =>
    intro xs
    cases xs with
    | nil => simp [chunkArrayAux]
    | cons x t => simp [chunkArrayAux, ih, List.take_append_drop]

/-- Concatenating the batches gives back the original list. -/
theorem chunkArray_flatten {α : Type} (xs : List α) (size : Nat) :
    (chunkArray xs size).flatten = xs :=
  chunkArrayAux_flatten size xs.length xs

/-- Every batch has at most `size` elements (for a positive batch size). -/
theorem chunkArrayAux_length_le {α : Type} (size : Nat) (hs : 1 ≤ size) :
    ∀ (fuel : Nat) (xs : List α), xs.length ≤ fuel →
      ∀ b ∈ chunkArrayAux size fuel xs, b.length ≤ size := by
  intro fuel
  induction fuel with
  | zero =>
    intro xs hlen b hb
    have : xs = [] := List.eq_nil_of_length_eq_zero (Nat.le_zero.mp hlen)
    subst this
    simp [chunkArrayAux] at hb
  | succ n ih =>
    intro xs hlen b hb
    cases xs with
    | nil => simp [chunkArrayAux] at hb
    | cons x t =>
      simp only [chunkArrayAux, List.isEmpty_cons, Bool.false_eq_true, if_false] at hb
      rcases List.mem_cons.mp hb with rfl | hb
      · rw [List.length_take]
        exact Nat.min_le_left _ _
      · refine ih ((x :: t).drop size) ?_ b hb
        simp only [List.length_drop, List.length_cons] at hlen ⊢
        omega

/-- Every batch has at most `size` elements (for a positive batch size). -/
theorem chunkArray_length_le {α : Type} (size : Nat) (hs : 1 ≤ size) (xs : List α) :
    ∀ b ∈ chunkArray xs size, b.length ≤ size :=
  chunkArrayAux_length_le size hs xs.length xs (Nat.le_refl _)

/-! ## The two embedDocuments implementations compute a map -/

/-- The batched client returns exactly the (prepared) texts mapped through the
service, in input order. -/
theorem embedDocuments_eq_map (f : String → List Int) (strip : Bool) (batchSize : Nat)
    (texts : List String) :
    embedDocuments f strip batchSize texts = (sentDocumentsInputs strip texts).map f := by
  show (((chunkArray (sentDocumentsInputs strip texts) batchSize).zip
      ((chunkArray (sentDocumentsInputs strip texts) batchSize).map (batchEmbedResponse f))).map
      (fun bp => (List.range bp.1.length).map (fun j => bp.2.getD j []))).flatten
      = (sentDocumentsInputs strip texts).map f
  rw [zip_self_map, List.map_map]
  have hinner : ∀ b : List String,
      ((fun bp : List String × List (List Int) =>
        (List.range bp.1.length).map fun j => bp.2.getD j []) ∘ fun b => (b, batchEmbedResponse f b)) b
        = b.map f := by
    intro b
    simp only [Function.comp, batchEmbedResponse]
    have := range_map_getD ([] : List Int) (b.map f)
    simpa [List.length_map] using this
  rw [List.map_congr_left fun b _ => hinner b]
  rw [← List.map_flatten, chunkArray_flatten]

/-- The sequential client returns exactly the texts mapped through the
service, in input order. -/
theorem embedDocumentsSeq_eq_map (f : String → List Int) (documents : List String) :
    embedDocumentsSeq f documents = documents.map f := by
  unfold embedDocumentsSeq
  simpa using foldl_push_eq_map (fun doc => (singleEmbedResponse f doc).getD 0 []) documents []

/-! ## upsertLoop lemmas -/

/-- `getLast?` skips a head when the tail is nonempty. -/
theorem getLast?_cons_of_ne_nil {α : Type} (a : α) {l : List α} (h : l ≠ []) :
    (a :: l).getLast? = l.getLast? := by
  cases l with
  | nil => exact absurd rfl h
  | cons b t => exact List.getLast?_cons_cons

/-- The loop emits at least one upsert call when there is at least one chunk. -/
theorem upsertLoop_ne_nil (t : String) (e : List (List Int)) (s : Nat) :
    ∀ (chunks : List Chunk) (idx : Nat) (batch : List PineVector), chunks ≠ [] →
      upsertLoop t e s chunks idx batch ≠ [] := by
  intro chunks
  induction chunks with
  | nil => intro idx batch h; exact absurd rfl h
  | cons c rest ih =>
    intro idx batch _
    simp only [upsertLoop]
    split
    · simp
    · next h =>
      push_neg at h
      exact ih (idx + 1) _ h.2

/-- Flattening the upsert calls yields the pending batch followed by the
vectors of the remaining chunks. -/
theorem upsertLoop_flatten (t : String) (e : List (List Int)) (s : Nat) :
    ∀ (chunks : List Chunk) (idx : Nat) (batch : List PineVector),
      chunks ≠ [] → batch.length < s →
      (upsertLoop t e s chunks idx batch).flatten = batch ++ vectorsFrom t e idx chunks := by
  intro chunks
  induction chunks with
  | nil => intro idx batch h; exact absurd rfl h
  | cons c rest ih =>
    intro idx batch _ hlt
    have hlen : (batch ++ [buildVector t e c idx]).length = batch.length + 1 := by simp
    by_cases hrest : rest = []
    · subst hrest
      simp [upsertLoop, vectorsFrom]
    · simp only [upsertLoop]
      split
      · next hcond =>
        rw [List.flatten_cons, ih (idx + 1) [] hrest (by simp only [List.length_nil]; omega)]
        simp [vectorsFrom]
      · next hcond =>
        push_neg at hcond
        rw [hlen] at hcond
        have hlt' : (batch ++ [buildVector t e c idx]).length < s := by
          rw [hlen]; omega
        rw [ih (idx + 1) _ hrest hlt']
        simp [vectorsFrom]

/-- Every upsert call holds at most `s` vectors. -/
theorem upsertLoop_batch_le (t : String) (e : List (List Int)) (s : Nat) :
    ∀ (chunks : List Chunk) (idx : Nat) (batch : List PineVector), batch.length < s →
      ∀ b ∈ upsertLoop t e s chunks idx batch, b.length ≤ s := by
  intro chunks
  induction chunks with
  | nil => intro idx batch _ b hb; simp [upsertLoop] at hb
  | cons c rest ih =>
    intro idx batch hlt b hb
    have hlen : (batch ++ [buildVector t e c idx]).length = batch.length + 1 := by simp
    simp only [upsertLoop] at hb
    split at hb
    · rcases List.mem_cons.mp hb with rfl | hb
      · rw [hlen]; omega
      · exact ih (idx + 1) [] (by simp only [List.length_nil]; omega) b hb
    · next hcond =>
      push_neg at hcond
      rw [hlen] at hcond
      refine ih (idx + 1) _ ?_ b hb
      rw [hlen]; omega

/-- Every upsert call except the last holds exactly `s` vectors. -/
theorem upsertLoop_dropLast_full (t : String) (e : List (List Int)) (s : Nat) :
    ∀ (chunks : List Chunk) (idx : Nat) (batch : List PineVector),
      ∀ b ∈ (upsertLoop t e s chunks idx batch).dropLast, b.length = s := by
  intro chunks
  induction chunks with
  | nil => intro idx batch b hb; simp [upsertLoop] at hb
  | cons c rest ih =>
    intro idx batch b hb
    simp only [upsertLoop] at hb
    split at hb
    · next hcond =>
      by_cases hrest : rest = []
      · subst hrest
        simp [upsertLoop] at hb
      · have hne := upsertLoop_ne_nil t e s rest (idx + 1) [] hrest
        rcases hl : upsertLoop t e s rest (idx + 1) [] with _ | ⟨y, l⟩
        · exact absurd hl hne
        · rw [hl, List.dropLast_cons₂] at hb
          rcases List.mem_cons.mp hb with rfl | hb
          · rcases hcond with hfull | hnil
            · exact hfull
            · exact absurd hnil hrest
          · have := ih (idx + 1) []
            rw [hl] at this
            exact this b hb
    · exact ih (idx + 1) _ b hb

/-- Length of the final upsert call: the remainder of `batch.length + #chunks`
modulo `s` (or a full `s` when that remainder is zero). -/
theorem upsertLoop_getLast (t : String) (e : List (List Int)) (s : Nat) (hs : 0 < s) :
    ∀ (chunks : List Chunk) (idx : Nat) (batch : List PineVector),
      chunks ≠ [] → batch.length < s →
      (upsertLoop t e s chunks idx batch).getLast?.map List.length
        = some (if (batch.length + chunks.length) % s = 0 then s
                else (batch.length + chunks.length) % s) := by
  intro chunks
  induction chunks with
  | nil => intro idx batch h; exact absurd rfl h
  | cons c rest ih =>
    intro idx batch _ hlt
    have hlen : (batch ++ [buildVector t e c idx]).length = batch.length + 1 := by simp
    by_cases hrest : rest = []
    · subst hrest
      simp only [upsertLoop, or_true, if_true, upsertLoop, List.getLast?_singleton,
        Option.map_some, hlen, List.length_cons, List.length_nil]
      by_cases hfull : batch.length + 1 = s
      · rw [if_pos (by rw [hfull]; exact Nat.mod_self s)]
        simp [hlen, hfull]
      · have hlt' : batch.length + 1 < s := by omega
        rw [Nat.mod_eq_of_lt hlt', if_neg (Nat.succ_ne_zero _)]
        simp [hlen]
    · simp only [upsertLoop]
      split
      · next hcond =>
        have hfull : batch.length + 1 = s := by
          rcases hcond with hfull | hnil
          · rw [hlen] at hfull; exact hfull
          · exact absurd hnil hrest
        rw [getLast?_cons_of_ne_nil _ (upsertLoop_ne_nil t e s rest (idx + 1) [] hrest)]
        rw [ih (idx + 1) [] hrest (by simp only [List.length_nil]; omega)]
        have harith : batch.length + (c :: rest).length = rest.length + s := by
          simp only [List.length_cons]
          omega
        rw [harith, Nat.add_mod_right]
        simp
      · next hcond =>
        push_neg at hcond
        rw [hlen] at hcond
        have hlt' : (batch ++ [buildVector t e c idx]).length < s := by
          rw [hlen]; omega
        rw [ih (idx + 1) _ hrest hlt']
        have harith : (batch ++ [buildVector t e c idx]).length + rest.length
            = batch.length + (c :: rest).length := by
          rw [hlen]; simp only [List.length_cons]; omega
        rw [harith]

/-! ## vectorsFrom lemmas -/

theorem vectorsFrom_length (t : String) (e : List (List Int)) :
    ∀ (chunks : List Chunk) (idx : Nat), (vectorsFrom t e idx chunks).length = chunks.length := by
  intro chunks
  induction chunks with
  | nil => intro idx; rfl
  | cons c rest ih => intro idx; simp [vectorsFrom, ih]

theorem vectorsFrom_getD (t : String) (e : List (List Int)) :
    ∀ (chunks : List Chunk) (idx i : Nat), i < chunks.length →
      (vectorsFrom t e idx chunks).getD i default
        = buildVector t e (chunks.getD i default) (idx + i) := by
  intro chunks
  induction chunks with
  | nil => intro idx i h; simp at h
  | cons c rest ih =>
    intro idx i h
    cases i with
    | zero => simp [vectorsFrom]
    | succ j =>
      simp only [vectorsFrom, List.getD_cons_succ]
      rw [ih (idx + 1) j (by simpa using h)]
      congr 1
      omega

/-! ## stripNL lemmas -/

/-- Stripping is the identity on newline-free text. -/
theorem stripNL_eq_self {s : String} (h : '\n' ∉ s.data) : stripNL s = s := by
  unfold stripNL
  have hmap : s.data.map (fun c => if c = '\n' then ' ' else c) = s.data := by
    calc s.data.map (fun c => if c = '\n' then ' ' else c)
        = s.data.map id := by
          refine List.map_congr_left ?_
          intro c hc
          rw [if_neg]
          · rfl
          · intro hcc
            exact h (hcc ▸ hc)
      _ = s.data := List.map_id s.data
  rw [hmap]

/-- The stripped text contains no newline character. -/
theorem stripNL_no_newline (s : String) : ∀ c ∈ (stripNL s).data, c ≠ '\n' := by
  intro c hc
  have hc' : c ∈ s.data.map (fun c => if c = '\n' then ' ' else c) := hc
  rw [List.mem_map] at hc'
  obtain ⟨a, _, rfl⟩ := hc'
  by_cases ha : a = '\n'
  · rw [if_pos ha]; intro hcc; exact absurd hcc (by decide)
  · rw [if_neg ha]; exact ha

/-- The prepared-inputs list has one entry per input text. -/
theorem sentDocumentsInputs_length (strip : Bool) (texts : List String) :
    (sentDocumentsInputs strip texts).length = texts.length := by
  cases strip <;> simp [sentDocumentsInputs]

/-! ## Text Chunker lemmas -/

theorem mem_of_getLast?_eq_some {α : Type} :
    ∀ {l : List α} {a : α}, l.getLast? = some a → a ∈ l := by
  intro l
  induction l with
  | nil => intro a h; simp at h
  | cons b t ih =>
    intro a h
    cases t with
    | nil =>
      simp only [List.getLast?_singleton, Option.some_inj] at h
      simp [h]
    | cons c u =>
      rw [getLast?_cons_of_ne_nil b (by simp)] at h
      exact List.mem_cons_of_mem b (ih h)

theorem lastBoundaryIn_bounds {pred : Char → Bool} {C : Nat} {s : List Char} {i : Nat}
    (h : lastBoundaryIn pred C s = some i) : 1 ≤ i ∧ i ≤ C := by
  have hm := mem_of_getLast?_eq_some h
  rw [List.mem_filter] at hm
  rcases hm with ⟨hm, _⟩
  rw [List.mem_map] at hm
  obtain ⟨j, hj, rfl⟩ := hm
  rw [List.mem_range] at hj
  omega

theorem bestSplit_bounds (C : Nat) (hC : 1 ≤ C) (s : List Char) :
    1 ≤ bestSplit C s ∧ bestSplit C s ≤ C := by
  unfold bestSplit
  rcases h1 : lastBoundaryIn (fun c => c = '\n') C s with _ | i
  · rcases h2 : lastBoundaryIn (fun c => c = '.') C s with _ | i
    · rcases h3 : lastBoundaryIn (fun c => c = ' ') C s with _ | i
      · exact ⟨hC, Nat.le_refl C⟩
      · exact lastBoundaryIn_bounds h3
    · exact lastBoundaryIn_bounds h2
  · exact lastBoundaryIn_bounds h1

/-- Soundness of the fuel-indexed chunker: with enough fuel, every chunk has
length at most `C` and the chunks concatenate to the input. -/
theorem chunkTextAux_spec (C : Nat) (hC : 1 ≤ C) :
    ∀ (fuel : Nat) (s : List Char), s.length ≤ fuel →
      (chunkTextAux C fuel s).flatten = s ∧ ∀ b ∈ chunkTextAux C fuel s, b.length ≤ C := by
  intro fuel
  induction fuel with
  | zero =>
    intro s hs
    have : s = [] := List.eq_nil_of_length_eq_zero (Nat.le_zero.mp hs)
    subst this
    simp [chunkTextAux]
  | succ n ih =>
    intro s hs
    by_cases hnil : s = []
    · subst hnil
      simp [chunkTextAux]
    · by_cases hlen : s.length ≤ C
      · constructor
        · simp [chunkTextAux, hnil, List.isEmpty_iff, hlen]
        · intro b hb
          simp only [chunkTextAux, List.isEmpty_iff, if_neg hnil, if_pos hlen,
            List.mem_singleton] at hb
          subst hb
          exact hlen
      · have hp := bestSplit_bounds C hC s
        have hdrop : (s.drop (bestSplit C s)).length ≤ n := by
          rw [List.length_drop]
          omega
        obtain ⟨ihf, ihb⟩ := ih (s.drop (bestSplit C s)) hdrop
        constructor
        · simp only [chunkTextAux, List.isEmpty_iff, if_neg hnil, if_neg hlen,
            List.flatten_cons, ihf]
          exact List.take_append_drop _ s
        · intro b hb
          simp only [chunkTextAux, List.isEmpty_iff, if_neg hnil, if_neg hlen,
            List.mem_cons] at hb
          rcases hb with rfl | hb
          · rw [List.length_take]
            omega
          · exact ihb b hb

/-- Soundness of the chunker at its real fuel. -/
theorem chunkText_spec (C : Nat) (hC : 1 ≤ C) (s : List Char) :
    (chunkText C s).flatten = s ∧ ∀ b ∈ chunkText C s, b.length ≤ C :=
  chunkTextAux_spec C hC s.length s (Nat.le_refl _)

/-! ## Concrete services used by witnesses and counterexamples -/

/-- A concrete deterministic language model: echoes its question argument. -/
def echoLLM : String → String → String := fun _ q => q

/-- A concrete deterministic embedding service: the text's length. -/
def lengthEmb (s : String) : List Int := [(s.length : Int)]

/-- A concrete deterministic embedding service that distinguishes a text from
its newline-stripped variant: counts newline characters. -/
def newlineCountEmb (s : String) : List Int := [(s.data.count '\n' : Int)]

/-! ## Claim C1 -/

/-- C1: for a document whose text splits into `M ≥ 1` chunks, `updatePinecone`
constructs exactly `M` vector records with ids `${txtPath}_0` through
`${txtPath}_{M-1}`, vector `i` carrying the embedding of the `i`-th chunk's
(newline-stripped) text, and upserts them in batches of at most 100: every
batch before the last holds exactly 100 records (a batch is flushed exactly
when it reaches 100 or at the last chunk), and the final batch holds
`M % 100` records, or 100 when `M` is a positive multiple of 100. -/
theorem C1_updatePinecone_batchedUpsert (f : String → List Int) (txtPath : String)
    (chunks : List Chunk) (hM : chunks ≠ []) :
    ((updatePineconeDoc f txtPath chunks).flatten.length = chunks.length)
    ∧ (∀ i, i < chunks.length →
        ((updatePineconeDoc f txtPath chunks).flatten.getD i default).id
            = txtPath ++ "_" ++ toString i
        ∧ ((updatePineconeDoc f txtPath chunks).flatten.getD i default).values
            = f (stripNL (chunks.getD i default).pageContent))
    ∧ (∀ b ∈ updatePineconeDoc f txtPath chunks, b.length ≤ 100)
    ∧ (∀ b ∈ (updatePineconeDoc f txtPath chunks).dropLast, b.length = 100)
    ∧ ((updatePineconeDoc f txtPath chunks).getLast?.map List.length
        = some (if chunks.length % 100 = 0 then 100 else chunks.length % 100)) := by
  have hflat : (updatePineconeDoc f txtPath chunks).flatten
      = vectorsFrom txtPath (batchEmbedResponse f (embedInputs chunks)) 0 chunks := by
    have := upsertLoop_flatten txtPath (batchEmbedResponse f (embedInputs chunks)) 100
      chunks 0 [] hM (by simp)
    simpa [updatePineconeDoc] using this
  refine ⟨?_, ?_, ?_, ?_, ?_⟩
  · rw [hflat, vectorsFrom_length]
  · intro i hi
    rw [hflat, vectorsFrom_getD _ _ chunks 0 i hi]
    constructor
    · simp [buildVector]
    · simp only [buildVector, batchEmbedResponse, Nat.zero_add]
      rw [getD_map f "" [] (embedInputs chunks) i (by simpa [embedInputs] using hi)]
      rw [show embedInputs chunks = chunks.map (fun chunk => stripNL chunk.pageContent) from rfl]
      rw [getD_map (fun chunk => stripNL chunk.pageContent) default "" chunks i hi]
  · intro b hb
    exact upsertLoop_batch_le txtPath _ 100 chunks 0 [] (by simp) b hb
  · intro b hb
    exact upsertLoop_dropLast_full txtPath _ 100 chunks 0 [] b hb
  · have := upsertLoop_getLast txtPath (batchEmbedResponse f (embedInputs chunks)) 100
      (by decide) chunks 0 [] hM (by simp)
    simpa [updatePineconeDoc] using this

/-- Witness for C1 at a concrete two-chunk document. -/
theorem C1_updatePinecone_batchedUpsert_witness :
    ([⟨"hello\nworld", "l0"⟩, ⟨"second", "l1"⟩] : List Chunk) ≠ []
    ∧ (((updatePineconeDoc lengthEmb "doc.txt"
          [⟨"hello\nworld", "l0"⟩, ⟨"second", "l1"⟩]).flatten.length
            = ([⟨"hello\nworld", "l0"⟩, ⟨"second", "l1"⟩] : List Chunk).length)
      ∧ (∀ i, i < ([⟨"hello\nworld", "l0"⟩, ⟨"second", "l1"⟩] : List Chunk).length →
          ((updatePineconeDoc lengthEmb "doc.txt"
              [⟨"hello\nworld", "l0"⟩, ⟨"second", "l1"⟩]).flatten.getD i default).id
              = "doc.txt" ++ "_" ++ toString i
          ∧ ((updatePineconeDoc lengthEmb "doc.txt"
              [⟨"hello\nworld", "l0"⟩, ⟨"second", "l1"⟩]).flatten.getD i default).values
              = lengthEmb (stripNL
                  (([⟨"hello\nworld", "l0"⟩, ⟨"second", "l1"⟩] : List Chunk).getD i
                    default).pageContent))
      ∧ (∀ b ∈ updatePineconeDoc lengthEmb "doc.txt"
            [⟨"hello\nworld", "l0"⟩, ⟨"second", "l1"⟩], b.length ≤ 100)
      ∧ (∀ b ∈ (updatePineconeDoc lengthEmb "doc.txt"
            [⟨"hello\nworld", "l0"⟩, ⟨"second", "l1"⟩]).dropLast, b.length = 100)
      ∧ ((updatePineconeDoc lengthEmb "doc.txt"
            [⟨"hello\nworld", "l0"⟩, ⟨"second", "l1"⟩]).getLast?.map List.length
          = some (if ([⟨"hello\nworld", "l0"⟩, ⟨"second", "l1"⟩] : List Chunk).length % 100 = 0
                  then 100
                  else ([⟨"hello\nworld", "l0"⟩, ⟨"second", "l1"⟩] : List Chunk).length % 100))) :=
  ⟨by decide,
   C1_updatePinecone_batchedUpsert lengthEmb "doc.txt"
     [⟨"hello\nworld", "l0"⟩, ⟨"second", "l1"⟩] (by decide)⟩

/-! ## Claim C10 -/

/-- C10: every vector record built by `updatePinecone` stores the chunk's
original `pageContent` (newlines intact) in its metadata, while the text
embedded for that same chunk is the newline-stripped variant (which contains
no newline at all); hence whenever the chunk contains a newline, the stored
raw text is not the stripped text. -/
theorem C10_updatePinecone_storesRawText (f : String → List Int) (txtPath : String)
    (chunks : List Chunk) (i : Nat) (hi : i < chunks.length) :
    (((updatePineconeDoc f txtPath chunks).flatten.getD i default).pageContent
        = (chunks.getD i default).pageContent)
    ∧ ((embedInputs chunks).getD i "" = stripNL (chunks.getD i default).pageContent)
    ∧ (∀ c ∈ (stripNL (chunks.getD i default).pageContent).data, c ≠ '\n')
    ∧ ('\n' ∈ ((chunks.getD i default).pageContent).data →
        ((updatePineconeDoc f txtPath chunks).flatten.getD i default).pageContent
          ≠ stripNL (chunks.getD i default).pageContent) := by
  have hM : chunks ≠ [] := by
    intro h
    subst h
    simp at hi
  have hflat : (updatePineconeDoc f txtPath chunks).flatten
      = vectorsFrom txtPath (batchEmbedResponse f (embedInputs chunks)) 0 chunks := by
    have := upsertLoop_flatten txtPath (batchEmbedResponse f (embedInputs chunks)) 100
      chunks 0 [] hM (by simp)
    simpa [updatePineconeDoc] using this
  have hstored : ((updatePineconeDoc f txtPath chunks).flatten.getD i default).pageContent
      = (chunks.getD i default).pageContent := by
    rw [hflat, vectorsFrom_getD _ _ chunks 0 i hi]
    simp [buildVector]
  refine ⟨hstored, ?_, stripNL_no_newline _, ?_⟩
  · rw [show embedInputs chunks = chunks.map (fun chunk => stripNL chunk.pageContent) from rfl]
    rw [getD_map (fun chunk => stripNL chunk.pageContent) default "" chunks i hi]
  · intro hnl heq
    rw [hstored] at heq
    exact stripNL_no_newline _ '\n' (heq ▸ hnl) rfl

/-- Witness for C10 at a chunk containing a newline. -/
theorem C10_updatePinecone_storesRawText_witness :
    0 < ([⟨"ab\ncd", "l0"⟩, ⟨"xy", "l1"⟩] : List Chunk).length
    ∧ ((((updatePineconeDoc lengthEmb "doc.txt"
            [⟨"ab\ncd", "l0"⟩, ⟨"xy", "l1"⟩]).flatten.getD 0 default).pageContent
          = (([⟨"ab\ncd", "l0"⟩, ⟨"xy", "l1"⟩] : List Chunk).getD 0 default).pageContent)
      ∧ ((embedInputs [⟨"ab\ncd", "l0"⟩, ⟨"xy", "l1"⟩]).getD 0 ""
          = stripNL (([⟨"ab\ncd", "l0"⟩, ⟨"xy", "l1"⟩] : List Chunk).getD 0 default).pageContent)
      ∧ (∀ c ∈ (stripNL (([⟨"ab\ncd", "l0"⟩, ⟨"xy", "l1"⟩] : List Chunk).getD 0
            default).pageContent).data, c ≠ '\n')
      ∧ ('\n' ∈ ((([⟨"ab\ncd", "l0"⟩, ⟨"xy", "l1"⟩] : List Chunk).getD 0
            default).pageContent).data →
          (((updatePineconeDoc lengthEmb "doc.txt"
              [⟨"ab\ncd", "l0"⟩, ⟨"xy", "l1"⟩]).flatten.getD 0 default).pageContent
            ≠ stripNL (([⟨"ab\ncd", "l0"⟩, ⟨"xy", "l1"⟩] : List Chunk).getD 0
                default).pageContent))) :=
  ⟨by decide,
   C10_updatePinecone_storesRawText lengthEmb "doc.txt"
     [⟨"ab\ncd", "l0"⟩, ⟨"xy", "l1"⟩] 0 (by decide)⟩

/-! ## Claim C2 -/

/-- C2 counterexample: with at least one match, the single completion call's
question is NOT the original question string — the code appends the fixed
suffix ", trả lời bằng thơ nhé" (part_000 line 137), so at question "who"
the sent question differs from "who". -/
theorem C2_question_not_original :
    ((queryPineconeVectorStoreAndQueryLLM echoLLM "who"
        [⟨"id0", 1, "text0"⟩]).2.map CompletionCall.question) ≠ ["who"] := by
  decide

/-- C2 (amended): for every query whose index response contains at least one
match, exactly one completion call is issued; its context document is the
space-joined concatenation of the matches' stored `pageContent` in response
order, its question is the original question followed by the fixed suffix
", trả lời bằng thơ nhé", and the returned answer is the model's response to
that call. -/
theorem C2_query_one_llm_call (llm : String → String → String) (question : String)
    (matchList : List QueryMatch) (h : matchList ≠ []) :
    (queryPineconeVectorStoreAndQueryLLM llm question matchList).2
      = [⟨String.intercalate " " (matchList.map QueryMatch.pageContent),
          question ++ ", trả lời bằng thơ nhé"⟩]
    ∧ (queryPineconeVectorStoreAndQueryLLM llm question matchList).1
      = some (llm (String.intercalate " " (matchList.map QueryMatch.pageContent))
          (question ++ ", trả lời bằng thơ nhé")) := by
  have hlen : matchList.length ≠ 0 := by
    intro h0
    exact h (List.eq_nil_of_length_eq_zero h0)
  simp [queryPineconeVectorStoreAndQueryLLM, hlen]

/-- Witness for C2 (amended) at two concrete matches. -/
theorem C2_query_one_llm_call_witness :
    ([⟨"id0", 1, "t0"⟩, ⟨"id1", 2, "t1"⟩] : List QueryMatch) ≠ []
    ∧ ((queryPineconeVectorStoreAndQueryLLM echoLLM "who"
          [⟨"id0", 1, "t0"⟩, ⟨"id1", 2, "t1"⟩]).2
        = [⟨"t0 t1", "who, trả lời bằng thơ nhé"⟩]
      ∧ (queryPineconeVectorStoreAndQueryLLM echoLLM "who"
          [⟨"id0", 1, "t0"⟩, ⟨"id1", 2, "t1"⟩]).1
        = some (echoLLM "t0 t1" "who, trả lời bằng thơ nhé")) :=
  ⟨by decide,
   C2_query_one_llm_call echoLLM "who" [⟨"id0", 1, "t0"⟩, ⟨"id1", 2, "t1"⟩] (by decide)⟩

/-! ## Claim C3 -/

/-- C3: for every query whose index response contains zero matches, the
language model is never invoked (no completion call is issued) and the result
is the no-answer value `none` (the code's `undefined`). -/
theorem C3_query_noMatch_skipsLLM (llm : String → String → String) (question : String)
    (matchList : List QueryMatch) (h : matchList.length = 0) :
    (queryPineconeVectorStoreAndQueryLLM llm question matchList).1 = none
    ∧ (queryPineconeVectorStoreAndQueryLLM llm question matchList).2 = [] := by
  simp [queryPineconeVectorStoreAndQueryLLM, h]

/-- Witness for C3 at an empty match list. -/
theorem C3_query_noMatch_skipsLLM_witness :
    ([] : List QueryMatch).length = 0
    ∧ ((queryPineconeVectorStoreAndQueryLLM echoLLM "who" []).1 = none
      ∧ (queryPineconeVectorStoreAndQueryLLM echoLLM "who" []).2 = []) :=
  ⟨by decide, C3_query_noMatch_skipsLLM echoLLM "who" [] (by decide)⟩

/-! ## Claim C4 -/

/-- C4: for every input list of texts, the batched `embedDocuments` partitions
the (possibly newline-stripped) texts into consecutive batches of at most the
configured batch size whose concatenation is the prepared input list, and
returns exactly one vector per input text, index-aligned with the input order
(vector `i` is the service's embedding of prepared text `i`). -/
theorem C4_embedDocuments_batches_aligned (f : String → List Int) (strip : Bool)
    (batchSize : Nat) (texts : List String) (hbs : 1 ≤ batchSize) :
    (∀ b ∈ chunkArray (sentDocumentsInputs strip texts) batchSize, b.length ≤ batchSize)
    ∧ ((chunkArray (sentDocumentsInputs strip texts) batchSize).flatten
        = sentDocumentsInputs strip texts)
    ∧ ((embedDocuments f strip batchSize texts).length = texts.length)
    ∧ (∀ i, i < texts.length →
        (embedDocuments f strip batchSize texts).getD i []
          = f ((sentDocumentsInputs strip texts).getD i "")) := by
  refine ⟨chunkArray_length_le batchSize hbs _, chunkArray_flatten _ _, ?_, ?_⟩
  · rw [embedDocuments_eq_map, List.length_map, sentDocumentsInputs_length]
  · intro i hi
    rw [embedDocuments_eq_map]
    exact getD_map f "" [] (sentDocumentsInputs strip texts) i
      (by rw [sentDocumentsInputs_length]; exact hi)

/-- Witness for C4 at batch size 2 with three texts (one more than a batch). -/
theorem C4_embedDocuments_batches_aligned_witness :
    1 ≤ 2
    ∧ ((∀ b ∈ chunkArray (sentDocumentsInputs true ["a\nb", "cd", "efg"]) 2, b.length ≤ 2)
      ∧ ((chunkArray (sentDocumentsInputs true ["a\nb", "cd", "efg"]) 2).flatten
          = sentDocumentsInputs true ["a\nb", "cd", "efg"])
      ∧ ((embedDocuments lengthEmb true 2 ["a\nb", "cd", "efg"]).length
          = (["a\nb", "cd", "efg"] : List String).length)
      ∧ (∀ i, i < (["a\nb", "cd", "efg"] : List String).length →
          (embedDocuments lengthEmb true 2 ["a\nb", "cd", "efg"]).getD i []
            = lengthEmb ((sentDocumentsInputs true ["a\nb", "cd", "efg"]).getD i ""))) :=
  ⟨by decide,
   C4_embedDocuments_batches_aligned lengthEmb true 2 ["a\nb", "cd", "efg"] (by decide)⟩

/-! ## Claim C5 -/

/-- C5: `createPineconeIndex` issues a creation request — with metric "cosine",
the given dimension, and the fixed initialization wait — if and only if the
index name is absent from the remote list; starting from a state without the
name, the first call issues exactly that one request and the second sequential
call with the same name observes existence and issues none. -/
theorem C5_createPineconeIndex_once (timeout : Nat) (existing : List String)
    (indexName : String) (dim : Nat) (habs : indexName ∉ existing) :
    ((createPineconeIndex timeout existing indexName dim).2.1
        = [⟨indexName, dim, "cosine"⟩])
    ∧ ((createPineconeIndex timeout existing indexName dim).2.2 = [timeout])
    ∧ ((createPineconeIndex timeout
          (createPineconeIndex timeout existing indexName dim).1 indexName dim).2.1 = [])
    ∧ (∀ st : List String,
        (createPineconeIndex timeout st indexName dim).2.1 ≠ [] ↔ indexName ∉ st) := by
  refine ⟨?_, ?_, ?_, ?_⟩
  · simp [createPineconeIndex, habs]
  · simp [createPineconeIndex, habs]
  · simp [createPineconeIndex, habs]
  · intro st
    by_cases hst : indexName ∈ st
    · simp [createPineconeIndex, hst]
    · simp [createPineconeIndex, hst]

/-- Witness for C5 starting from an empty remote index list. -/
theorem C5_createPineconeIndex_once_witness :
    "pdf-index" ∉ ([] : List String)
    ∧ (((createPineconeIndex 7 [] "pdf-index" 1536).2.1
          = [⟨"pdf-index", 1536, "cosine"⟩])
      ∧ ((createPineconeIndex 7 [] "pdf-index" 1536).2.2 = [7])
      ∧ ((createPineconeIndex 7
            (createPineconeIndex 7 [] "pdf-index" 1536).1 "pdf-index" 1536).2.1 = [])
      ∧ (∀ st : List String,
          (createPineconeIndex 7 st "pdf-index" 1536).2.1 ≠ [] ↔ "pdf-index" ∉ st)) :=
  ⟨by decide, C5_createPineconeIndex_once 7 [] "pdf-index" 1536 (by decide)⟩

/-! ## Claim C6 -/

/-- C6: for every document text and configured chunk size `C ≥ 1` (the
pipeline uses the default 1000), every chunk produced by the Text Chunker has
length at most `C`, and concatenating the chunk texts in output order
reproduces the original content exactly — no characters dropped or duplicated
across chunk boundaries. -/
theorem C6_chunker_sound (C : Nat) (s : List Char) (hC : 1 ≤ C) :
    (∀ b ∈ chunkText C s, b.length ≤ C) ∧ (chunkText C s).flatten = s :=
  ⟨(chunkText_spec C hC s).2, (chunkText_spec C hC s).1⟩

/-- Witness for C6 at chunk size 5 on a text with paragraph, sentence and word
boundaries. -/
theorem C6_chunker_sound_witness :
    1 ≤ 5
    ∧ ((∀ b ∈ chunkText 5 "ab.cd ef\ngh ij".data, b.length ≤ 5)
      ∧ (chunkText 5 "ab.cd ef\ngh ij".data).flatten = "ab.cd ef\ngh ij".data) :=
  ⟨by decide, C6_chunker_sound 5 "ab.cd ef\ngh ij".data (by decide)⟩

/-! ## Claim C7 -/

/-- C7: with newline stripping enabled (the default), both `embedQuery` and
`embedDocuments` replace every newline character of each input text with a
space before sending it to the embedding service — the sent text has the same
length as the input, holding a space exactly at the positions where the input
held a newline and the original character elsewhere; with stripping disabled,
the input text is sent unchanged. -/
theorem C7_stripNewlines_beforeSending (f : String → List Int) (text : String)
    (texts : List String) :
    (sentQueryInput false text = text)
    ∧ (sentDocumentsInputs false texts = texts)
    ∧ (sentDocumentsInputs true texts = texts.map (fun t => sentQueryInput true t))
    ∧ (embedQuery f true text = f (sentQueryInput true text))
    ∧ (embedQuery f false text = f text)
    ∧ ((sentQueryInput true text).data.length = text.data.length)
    ∧ (∀ i, i < text.data.length →
        (sentQueryInput true text).data.getD i ' '
          = if text.data.getD i ' ' = '\n' then ' ' else text.data.getD i ' ') := by
  refine ⟨rfl, rfl, rfl, rfl, rfl, ?_, ?_⟩
  · simp [sentQueryInput, stripNL]
  · intro i hi
    have := getD_map (fun c => if c = '\n' then ' ' else c) ' ' ' ' text.data i hi
    simpa [sentQueryInput, stripNL] using this

/-- Witness for C7: position 1 of "a\nb" is sent as a space. -/
theorem C7_stripNewlines_beforeSending_witness :
    1 < "a\nb".data.length
    ∧ (sentQueryInput true "a\nb").data.getD 1 ' '
        = (if "a\nb".data.getD 1 ' ' = '\n' then ' ' else "a\nb".data.getD 1 ' ') :=
  ⟨by decide,
   (C7_stripNewlines_beforeSending lengthEmb "a\nb" ["x\ny"]).2.2.2.2.2.2 1 (by decide)⟩

/-! ## Claim C8 -/

/-- C8 counterexample: at a POST request whose query pipeline finds no
matches, the serialized response body is the empty object — it contains no
"data" field at all (`JSON.stringify` omits the undefined-valued field) —
refuting the claim that the data field is always present, holding null. -/
theorem C8_data_field_absent :
    POST echoLLM [] "q" = [] ∧ (POST echoLLM [] "q").lookup "data" = none := by
  decide

/-- C8 (amended): for every POST request, the response body is `{data: answer}`
when the query pipeline produces an answer, and the empty object `{}` — data
field omitted, not null — when it does not. -/
theorem C8_post_response_shape (llm : String → String → String)
    (matchList : List QueryMatch) (body : String) :
    (∀ t, (queryPineconeVectorStoreAndQueryLLM llm body matchList).1 = some t →
        POST llm matchList body = [("data", Json.jstr t)])
    ∧ ((queryPineconeVectorStoreAndQueryLLM llm body matchList).1 = none →
        POST llm matchList body = []) := by
  constructor
  · intro t ht
    simp [POST, postResponseBody, ht]
  · intro ht
    simp [POST, postResponseBody, ht]

/-- Witness for C8 (amended): one answering request and one no-match request. -/
theorem C8_post_response_shape_witness :
    POST echoLLM [⟨"id0", 1, "t0"⟩] "q" = [("data", Json.jstr "q, trả lời bằng thơ nhé")]
    ∧ POST echoLLM [] "q" = [] :=
  ⟨(C8_post_response_shape echoLLM [⟨"id0", 1, "t0"⟩] "q").1
      "q, trả lời bằng thơ nhé" (by decide),
   (C8_post_response_shape echoLLM [] "q").2 (by decide)⟩

/-! ## Claim C9 -/

/-- C9 counterexample: with the batched client's defaults (stripNewLines true,
batchSize 512) and the same deterministic embedding service for both clients,
the two implementations disagree on a text containing a newline — the batched
client embeds the stripped text while the sequential client embeds the raw
text — for both embedDocuments and embedQuery. -/
theorem C9_clients_not_equivalent :
    (embedDocuments newlineCountEmb true 512 ["a\nb"]
      ≠ embedDocumentsSeq newlineCountEmb ["a\nb"])
    ∧ (embedQuery newlineCountEmb true "a\nb" ≠ embedQuerySeq newlineCountEmb "a\nb") := by
  decide

/-- C9 (amended): the two LlamaEmbeddings implementations are extensionally
equivalent exactly in the absence of newline rewriting: with stripping
disabled, batched and sequential embedDocuments return the same list of
vectors (and the two embedQuery variants the same vector) for EVERY input —
newlines included — for every deterministic service and batch size; with
stripping enabled they agree on every input containing no newline. -/
theorem C9_clients_equiv_noStrip (f : String → List Int) (batchSize : Nat)
    (text : String) (texts : List String) :
    (embedDocuments f false batchSize texts = embedDocumentsSeq f texts)
    ∧ (embedQuery f false text = embedQuerySeq f text)
    ∧ ((∀ t ∈ texts, '\n' ∉ t.data) →
        embedDocuments f true batchSize texts = embedDocumentsSeq f texts)
    ∧ ('\n' ∉ text.data → embedQuery f true text = embedQuerySeq f text) := by
  refine ⟨?_, rfl, ?_, ?_⟩
  · rw [embedDocuments_eq_map, embedDocumentsSeq_eq_map]
    rfl
  · intro hts
    rw [embedDocuments_eq_map, embedDocumentsSeq_eq_map]
    show (texts.map stripNL).map f = texts.map f
    rw [List.map_map]
    refine List.map_congr_left ?_
    intro t ht
    simp only [Function.comp]
    rw [stripNL_eq_self (hts t ht)]
  · intro hq
    show f (stripNL text) = f text
    rw [stripNL_eq_self hq]

/-- Witness for C9 (amended): the strip-disabled equivalence at a text that
DOES contain a newline, and the strip-enabled equivalence at newline-free
texts with its hypotheses discharged. -/
theorem C9_clients_equiv_noStrip_witness :
    (embedDocuments lengthEmb false 2 ["a\nb", "cd"]
        = embedDocumentsSeq lengthEmb ["a\nb", "cd"])
    ∧ (embedQuery lengthEmb false "a\nb" = embedQuerySeq lengthEmb "a\nb")
    ∧ ((∀ t ∈ (["ab", "cd"] : List String), '\n' ∉ t.data)
      ∧ embedDocuments lengthEmb true 2 ["ab", "cd"]
          = embedDocumentsSeq lengthEmb ["ab", "cd"])
    ∧ ('\n' ∉ "ab".data
      ∧ embedQuery lengthEmb true "ab" = embedQuerySeq lengthEmb "ab") :=
  ⟨(C9_clients_equiv_noStrip lengthEmb 2 "a\nb" ["a\nb", "cd"]).1,
   (C9_clients_equiv_noStrip lengthEmb 2 "a\nb" ["a\nb", "cd"]).2.1,
   ⟨by decide,
    (C9_clients_equiv_noStrip lengthEmb 2 "ab" ["ab", "cd"]).2.2.1 (by decide)⟩,
   ⟨by decide,
    (C9_clients_equiv_noStrip lengthEmb 2 "ab" ["ab", "cd"]).2.2.2 (by decide)⟩⟩

end NPS
